import Mathlib

/-!
Verification of the rank-tracking engine of the `ordered_mutex` crate.

The development shallowly embeds the crate's source:

* `RankSet` (src/rank_set.rs): a 64-bit bitset of currently held rank
  codes, modelled as a `Nat` together with explicit `< 2^64` bounds where
  the u64 width matters.  `insert` and `remove` follow the Rust code
  operation by operation (`1_u64 << elt`, `!(bit - 1)`, `&`, `|`).
* `ThreadState.lock` / `ThreadState.unlock` (src/lib.rs): the per-thread
  acquire/release protocol.  A Rust panic (the `assert!` firing on an
  order violation) is modelled as `none`; note the source performs the
  `insert` mutation through the `RefCell` before the assertion is
  checked, and the model reproduces that: the returned `RankSet` is the
  post-insert state even on the panicking path.
* `Mutex.lock` (src/lib.rs): performs the rank check first, then
  acquires the inner `std::sync::Mutex`; on poison it rebuilds the guard
  from `PoisonError::into_inner` and returns it as an error value.  The
  middle `Bool` component records whether the inner mutex was touched.
* Guards: `SavedState` carries the rank it was created with; dropping it
  calls `ThreadState.unlock`, i.e. `RankSet.remove` of that rank.
* Thread-local storage: each thread owns one `RankSet` per rank domain,
  modelled as a map `Nat → RankSet` from thread ids; an interleaved
  trace of per-thread operations is executed by `runSys`.
-/

namespace OrderedMutex

/-- The width of the bitset: `RankSet.bitset` is a `u64` in the source. -/
def WIDTH : Nat := 64

/-- `pub struct RankSet<R> { bitset: u64, ... }` (src/rank_set.rs).
The `u64` field is modelled as a `Nat`; theorems that depend on the
64-bit width carry an explicit `bitset < 2^64` hypothesis. -/
structure RankSet where
  bitset : Nat
deriving DecidableEq, Repr

/-- `RankSet::new`: the empty set, `bitset: 0`. -/
def RankSet.new : RankSet := ⟨0⟩

/-- `RankSet::insert(&mut self, elt) -> bool` (src/rank_set.rs lines 20-28):
```
let bit = 1_u64 << elt.into();
let greater_than_or_equal = !(bit - 1);
let result = self.bitset & greater_than_or_equal != 0;
self.bitset |= bit;
result
```
Returns the new set together with the returned `bool`.  The u64
complement `!x` is `(2^64 - 1) ^^^ x`. -/
def RankSet.insert (s : RankSet) (elt : Nat) : RankSet × Bool :=
  let bit := 1 <<< elt
  let greater_than_or_equal := (2 ^ 64 - 1) ^^^ (bit - 1)
  let result := s.bitset &&& greater_than_or_equal != 0
  (⟨s.bitset ||| bit⟩, result)

/-- `RankSet::remove(&mut self, elt)` (src/rank_set.rs lines 31-34):
```
let bit = 1 << elt.into();
self.bitset &= !bit;
``` -/
def RankSet.remove (s : RankSet) (elt : Nat) : RankSet :=
  let bit := 1 <<< elt
  ⟨s.bitset &&& ((2 ^ 64 - 1) ^^^ bit)⟩

/-- In Rust, `1_u64 << elt` panics (in debug builds) when `elt ≥ 64`:
the checked shift underlying `RankSet::insert` and `RankSet::remove`.
`none` models the shift-overflow panic. -/
def checkedShl1 (elt : Nat) : Option Nat :=
  if elt < 64 then some (1 <<< elt) else none

/-- `RankSet::insert` with the debug-build overflow check of
`1_u64 << elt` made explicit; `none` is the overflow panic branch.
`RankSet` itself performs no range check on `elt` beyond this. -/
def RankSet.insertChecked (s : RankSet) (elt : Nat) : Option (RankSet × Bool) :=
  match checkedShl1 elt with
  | none => none
  | some bit =>
    let greater_than_or_equal := (2 ^ 64 - 1) ^^^ (bit - 1)
    let result := s.bitset &&& greater_than_or_equal != 0
    some (⟨s.bitset ||| bit⟩, result)

/-- `RankSet::remove` with the debug-build overflow check of
`1 << elt` made explicit; `none` is the overflow panic branch. -/
def RankSet.removeChecked (s : RankSet) (elt : Nat) : Option RankSet :=
  match checkedShl1 elt with
  | none => none
  | some bit => some ⟨s.bitset &&& ((2 ^ 64 - 1) ^^^ bit)⟩

/-- `struct SavedState<R: Rank> { rank: R }` (src/lib.rs line 236):
the scope guard returned by a successful `ThreadState::lock`, carrying
the rank that was inserted.  Rank values are their `u32` codes. -/
structure SavedState where
  rank : Nat
deriving DecidableEq, Repr

/-- `ThreadState::lock(rank)` (src/lib.rs lines 219-227):
```
R::CURRENT_RANK.with(|state| {
    assert!(!state.current_rank.borrow_mut().insert(rank.clone()), ...);
});
SavedState { rank }
```
The `insert` mutates the thread-local `RankSet` *before* the `assert!`
is evaluated, so the returned state is the post-insert state in both
outcomes; `none` for the `SavedState` models the panic
"Attempted to acquire lock out of order". -/
def ThreadState.lock (s : RankSet) (rank : Nat) : RankSet × Option SavedState :=
  let p := RankSet.insert s rank
  if p.2 then (p.1, none) else (p.1, some ⟨rank⟩)

/-- `ThreadState::unlock(rank)` (src/lib.rs lines 229-233): removes the
rank from the thread's `RankSet`. -/
def ThreadState.unlock (s : RankSet) (rank : Nat) : RankSet :=
  RankSet.remove s rank

/-- `impl Drop for SavedState` (src/lib.rs lines 240-244): dropping the
scope guard calls `ThreadState::unlock(self.rank)`. -/
def SavedState.drop (ss : SavedState) (s : RankSet) : RankSet :=
  ThreadState.unlock s ss.rank

/-- `pub struct Mutex<T, R: Rank>` (src/lib.rs lines 246-249): the value
of type `T` is opaque to the rank engine; `poisoned` is the state of the
inner `std::sync::Mutex` (whether a prior holder panicked). -/
structure Mutex where
  poisoned : Bool
  rank : Nat
deriving DecidableEq, Repr

/-- `pub struct MutexGuard<'a, T, R: Rank>` (src/lib.rs lines 251-256):
composes the inner `std::sync::MutexGuard` (no modelled content) with
the rank-tracking `SavedState`. -/
structure MutexGuard where
  saved_state : SavedState
deriving DecidableEq, Repr

/-- `impl Drop` chain for `MutexGuard`: its `saved_state` field is
dropped with the guard, removing the guard's rank from the thread's
`RankSet`. -/
def MutexGuard.drop (g : MutexGuard) (s : RankSet) : RankSet :=
  g.saved_state.drop s

/-- `Mutex::lock(&self)` (src/lib.rs lines 266-275):
```
let saved_state = ThreadState::lock(self.rank.clone());
match self.inner.lock() {
    Ok(inner) => Ok(MutexGuard { inner, saved_state }),
    Err(e) => Err(PoisonError::new(MutexGuard { inner: e.into_inner(), saved_state })),
}
```
Result: (thread's new `RankSet`, whether `self.inner.lock()` was
reached, the outcome).  `none` models the propagated panic from
`ThreadState::lock`; `Except.error g` models
`Err(PoisonError::new(g))`; `Except.ok g` models `Ok(g)`. -/
def Mutex.lock (m : Mutex) (s : RankSet) :
    RankSet × Bool × Option (Except MutexGuard MutexGuard) :=
  match ThreadState.lock s m.rank with
  | (s', none) => (s', false, none)
  | (s', some saved_state) =>
    if m.poisoned then
      (s', true, some (Except.error ⟨saved_state⟩))
    else
      (s', true, some (Except.ok ⟨saved_state⟩))

/-- A single thread's acquire/release events, as issued by
`Mutex::lock` and guard drops; ranks are their `u32` codes. -/
inductive Op where
  | acquire : Nat → Op
  | release : Nat → Op
deriving DecidableEq, Repr

/-- One event against a thread's `RankSet`: acquire runs
`RankSet.insert` (the `Bool` is the order-violation flag that makes
`ThreadState::lock` panic), release runs `RankSet.remove`. -/
def stepOp (s : RankSet) : Op → RankSet × Bool
  | Op.acquire r => RankSet.insert s r
  | Op.release r => (RankSet.remove s r, false)

/-- A single thread's sequential history of acquire/release calls:
final `RankSet` and whether any acquisition raised an order
violation. -/
def runOps (s : RankSet) : List Op → RankSet × Bool
  | [] => (s, false)
  | op :: rest =>
    let p := stepOp s op
    let q := runOps p.1 rest
    (q.1, p.2 || q.2)

/-- The per-thread storage of `thread_local!`: each thread id owns its
own `RankSet` for the rank domain (src/lib.rs lines 202-216). -/
def Threads := Nat → RankSet

/-- An interleaved execution: each event `(t, op)` runs `op` against
thread `t`'s own `RankSet`, leaving every other thread's set untouched.
Returns the final per-thread states and, per thread, whether any of its
acquisitions raised an order violation. -/
def runSys (f : Threads) : List (Nat × Op) → Threads × (Nat → Bool)
  | [] => (f, fun _ => false)
  | (t, op) :: rest =>
    let p := stepOp (f t) op
    let q := runSys (fun u => if u = t then p.1 else f u) rest
    (q.1, fun u => (if u = t then p.2 else false) || q.2 u)

/-- The subsequence of an interleaved trace belonging to thread `t`. -/
def projThread (t : Nat) (tr : List (Nat × Op)) : List Op :=
  tr.filterMap (fun p => if p.1 = t then some p.2 else none)

/-! ## Helper lemmas about the bit-level arithmetic -/

/-- The bits of the greater-than-or-equal mask `!(2^c - 1)` (u64
complement): bit `i` is set exactly when `c ≤ i < 64`. -/
theorem testBit_geMask {c : Nat} (hc : c ≤ 64) (i : Nat) :
    ((2 ^ 64 - 1) ^^^ (2 ^ c - 1)).testBit i = (decide (c ≤ i) && decide (i < 64)) := by
  rw [Nat.testBit_xor, Nat.testBit_two_pow_sub_one, Nat.testBit_two_pow_sub_one]
  by_cases h1 : i < c <;> by_cases h2 : i < 64 <;> simp [h1, h2] <;> omega

/-- A u64-bounded value has no bits at positions `≥ 64`. -/
theorem testBit_false_of_ge {m i : Nat} (hm : m < 2 ^ 64) (hi : 64 ≤ i) :
    m.testBit i = false :=
  Nat.testBit_lt_two_pow (lt_of_lt_of_le hm (Nat.pow_le_pow_right (by omega) hi))

/-- All bits of a value below `2^b` sit below position `b`. -/
theorem testBit_imp_lt {m b : Nat} (h : m < 2 ^ b) : ∀ i, m.testBit i = true → i < b := by
  intro i hi
  by_contra hc
  rw [Nat.testBit_lt_two_pow (lt_of_lt_of_le h (Nat.pow_le_pow_right (by omega) (by omega)))] at hi
  exact Bool.noConfusion hi

/-- Conversely, a value whose bits all sit below position `c` is below `2^c`. -/
theorem lt_two_pow_of_bits_lt {m c : Nat} (h : ∀ i, m.testBit i = true → i < c) :
    m < 2 ^ c := by
  have hm : m = m &&& (2 ^ c - 1) := by
    apply Nat.eq_of_testBit_eq
    intro i
    rw [Nat.testBit_land, Nat.testBit_two_pow_sub_one]
    by_cases hic : i < c
    · simp [hic]
    · have : m.testBit i = false := by
        cases hmi : m.testBit i
        · rfl
        · exact absurd (h i hmi) hic
      simp [this]
  calc m = m &&& (2 ^ c - 1) := hm
    _ < 2 ^ c := Nat.and_lt_two_pow m (Nat.sub_lt (Nat.pos_pow_of_pos c (by omega)) (by omega))

/-- The boolean returned by `RankSet.insert ⟨m⟩ c` is the emptiness test
of `m &&& geMask`. -/
theorem insert_snd (m c : Nat) :
    (RankSet.insert ⟨m⟩ c).2 = (m &&& ((2 ^ 64 - 1) ^^^ (2 ^ c - 1)) != 0) := by
  simp [RankSet.insert, Nat.one_shiftLeft]

/-- The mask after `RankSet.insert` is the old mask with bit `c` set. -/
theorem insert_fst (m c : Nat) :
    ((RankSet.insert ⟨m⟩ c).1).bitset = m ||| 2 ^ c := by
  simp [RankSet.insert, Nat.one_shiftLeft]

/-- `RankSet.insert` returns `true` exactly when the mask has a bit at
some position `≥ c` (for u64-bounded masks and in-range codes). -/
theorem insert_snd_true_iff {m c : Nat} (hm : m < 2 ^ 64) (hc : c < 64) :
    (RankSet.insert ⟨m⟩ c).2 = true ↔ ∃ i, c ≤ i ∧ m.testBit i = true := by
  rw [insert_snd, bne_iff_ne]
  constructor
  · intro hne
    obtain ⟨i, hi⟩ := Nat.ne_zero_implies_bit_true hne
    rw [Nat.testBit_land, testBit_geMask (by omega)] at hi
    have h2 := Bool.and_eq_true _ _ |>.mp hi
    have h3 := Bool.and_eq_true _ _ |>.mp h2.2
    exact ⟨i, of_decide_eq_true h3.1, h2.1⟩
  · rintro ⟨i, hci, hbit⟩
    have hi64 : i < 64 := testBit_imp_lt hm i hbit
    intro h0
    have : (m &&& ((2 ^ 64 - 1) ^^^ (2 ^ c - 1))).testBit i = true := by
      rw [Nat.testBit_land, testBit_geMask (by omega), hbit]
      simp [hci, hi64]
    rw [h0, Nat.zero_testBit] at this
    exact Bool.noConfusion this

/-- Two rank sets with the same mask are equal. -/
theorem RankSet.ext {s t : RankSet} (h : s.bitset = t.bitset) : s = t := by
  cases s; cases t; cases h; rfl

/-- `insert` reports a violation whenever some bit at position `≥ c`
(and `< 64`) is set. -/
theorem insert_snd_eq_true_of_bit {m c a : Nat} (ha : a < 64) (hca : c ≤ a)
    (h : m.testBit a = true) : (RankSet.insert ⟨m⟩ c).2 = true := by
  rw [insert_snd, bne_iff_ne]
  intro h0
  have hb : (m &&& ((2 ^ 64 - 1) ^^^ (2 ^ c - 1))).testBit a = true := by
    rw [Nat.testBit_land, testBit_geMask (by omega), h]
    simp [hca, ha]
  rw [h0, Nat.zero_testBit] at hb
  exact Bool.noConfusion hb

/-- `insert` reports no violation when every set bit sits below `c`. -/
theorem insert_snd_eq_false {m c : Nat} (hc : c ≤ 64)
    (h : ∀ i, m.testBit i = true → i < c) : (RankSet.insert ⟨m⟩ c).2 = false := by
  rw [insert_snd]
  have h0 : m &&& ((2 ^ 64 - 1) ^^^ (2 ^ c - 1)) = 0 := by
    apply Nat.eq_of_testBit_eq
    intro i
    rw [Nat.testBit_land, testBit_geMask hc, Nat.zero_testBit]
    cases hmi : m.testBit i
    · rfl
    · have hic := h i hmi
      simp [decide_eq_false (show ¬ c ≤ i by omega)]
  rw [h0]
  rfl

/-- Converse reading of the violation flag: no violation exactly when
every set bit sits below `c`. -/
theorem insert_snd_false_iff {m c : Nat} (hm : m < 2 ^ 64) (hc : c < 64) :
    (RankSet.insert ⟨m⟩ c).2 = false ↔ ∀ i, m.testBit i = true → i < c := by
  constructor
  · intro hf i hi
    by_contra hlt
    rw [insert_snd_eq_true_of_bit (testBit_imp_lt hm i hi) (by omega) hi] at hf
    exact Bool.noConfusion hf
  · intro h
    exact insert_snd_eq_false (by omega) h

/-! ## The claims -/

/-- C1: for ranks `b ≤ a < 64`, a thread that acquired rank `a` (or in
general still holds it) panics with the order violation when it attempts
to acquire rank `b`; and acquiring rank `b` never fails when every held
code is strictly below `b`. -/
theorem lock_order_violation (a b : Nat) (ha : a < 64) (hb : b < 64) (hba : b ≤ a) :
    (∀ s : RankSet, (ThreadState.lock s a).2.isSome = true →
      (ThreadState.lock (ThreadState.lock s a).1 b).2 = none)
    ∧ (∀ s : RankSet, s.bitset.testBit a = true → (ThreadState.lock s b).2 = none)
    ∧ (∀ s : RankSet, (∀ i, s.bitset.testBit i = true → i < b) →
      (ThreadState.lock s b).2 = some ⟨b⟩) := by
  have key : ∀ s : RankSet, s.bitset.testBit a = true → (ThreadState.lock s b).2 = none := by
    rintro ⟨m⟩ hs
    have hp := insert_snd_eq_true_of_bit ha hba hs
    simp [ThreadState.lock, hp]
  refine ⟨?_, key, ?_⟩
  · rintro ⟨m⟩ _
    apply key
    have : (ThreadState.lock ⟨m⟩ a).1.bitset = m ||| 2 ^ a := by
      simp only [ThreadState.lock, RankSet.insert, Nat.one_shiftLeft]
      split <;> rfl
    rw [this, Nat.testBit_lor, Nat.testBit_two_pow]
    simp
  · rintro ⟨m⟩ hall
    have hp := insert_snd_eq_false (by omega) hall
    simp [ThreadState.lock, hp]

/-- Witness for C1 at a = 5, b = 3, held mask 2^5 resp. 2^2. -/
theorem lock_order_violation_witness :
    (ThreadState.lock ⟨32⟩ 3).2 = none ∧ (ThreadState.lock ⟨4⟩ 3).2 = some ⟨3⟩ :=
  ⟨(lock_order_violation 5 3 (by decide) (by decide) (by decide)).2.1 ⟨32⟩ (by decide),
   (lock_order_violation 5 3 (by decide) (by decide) (by decide)).2.2 ⟨4⟩
     (testBit_imp_lt (by decide))⟩

/-- C2: for every u64 mask `m` and code `c < 64`, `insert c` returns
`true` iff the prior mask had some bit at position `≥ c`, the new mask
is `m ||| 2^c`, and inserting an already-present code returns `true`. -/
theorem insert_spec (m c : Nat) (hm : m < 2 ^ 64) (hc : c < 64) :
    ((RankSet.insert ⟨m⟩ c).2 = true ↔ ∃ i, c ≤ i ∧ m.testBit i = true)
    ∧ (RankSet.insert ⟨m⟩ c).1 = ⟨m ||| 2 ^ c⟩
    ∧ (m.testBit c = true → (RankSet.insert ⟨m⟩ c).2 = true) := by
  refine ⟨insert_snd_true_iff hm hc, ?_, ?_⟩
  · exact RankSet.ext (insert_fst m c)
  · intro h
    exact (insert_snd_true_iff hm hc).mpr ⟨c, Nat.le_refl c, h⟩

/-- Witness for C2 at m = 8, c = 3 (bit 3 already present). -/
theorem insert_spec_witness :
    ((RankSet.insert ⟨8⟩ 3).2 = true ↔ ∃ i, 3 ≤ i ∧ Nat.testBit 8 i = true)
    ∧ (RankSet.insert ⟨8⟩ 3).1 = ⟨8 ||| 2 ^ 3⟩
    ∧ (Nat.testBit 8 3 = true → (RankSet.insert ⟨8⟩ 3).2 = true) :=
  insert_spec 8 3 (by decide) (by decide)

/-- C3 counterexample: with bit 5 held, locking the rank-3 mutex panics
with the order violation, yet the thread's RankSet is NOT left
unchanged: `insert` set bit 3 before the assertion fired. -/
theorem failed_lock_changes_rankset :
    (Mutex.lock ⟨false, 3⟩ ⟨32⟩).2.2 = none
    ∧ (Mutex.lock ⟨false, 3⟩ ⟨32⟩).1 ≠ ⟨32⟩ := by
  constructor
  · rfl
  · intro h
    have : (40 : Nat) = 32 := congrArg RankSet.bitset h
    omega

/-- C3 (amended): an acquisition that fails with the order violation
panics before the underlying mutex is touched, but the thread's RankSet
is changed by the failed attempt: bit `rank` has already been set by the
`insert` that detected the violation. -/
theorem failed_lock_aborts_before_inner (m : Mutex) (s : RankSet)
    (h : (Mutex.lock m s).2.2 = none) :
    (Mutex.lock m s).2.1 = false
    ∧ (Mutex.lock m s).1 = ⟨s.bitset ||| 2 ^ m.rank⟩ := by
  obtain ⟨ms⟩ := s
  have hfst : (ThreadState.lock ⟨ms⟩ m.rank).1 = ⟨ms ||| 2 ^ m.rank⟩ := by
    apply RankSet.ext
    simp only [ThreadState.lock, RankSet.insert, Nat.one_shiftLeft]
    split <;> rfl
  cases hp : (RankSet.insert ⟨ms⟩ m.rank).2
  · exfalso
    have hl : (ThreadState.lock ⟨ms⟩ m.rank).2 = some ⟨m.rank⟩ := by
      simp [ThreadState.lock, hp]
    rw [Mutex.lock] at h
    revert h
    cases he : ThreadState.lock ⟨ms⟩ m.rank with
    | mk s' o =>
      have ho : o = some ⟨m.rank⟩ := by rw [← hl, he]
      subst ho
      cases m.poisoned <;> simp
  · have hl : (ThreadState.lock ⟨ms⟩ m.rank).2 = none := by
      simp [ThreadState.lock, hp]
    rw [Mutex.lock]
    cases he : ThreadState.lock ⟨ms⟩ m.rank with
    | mk s' o =>
      have ho : o = none := by rw [← hl, he]
      subst ho
      have hs' : s' = ⟨ms ||| 2 ^ m.rank⟩ := by rw [← hfst, he]
      simp [hs']

/-- Witness for amended C3: same concrete failing acquisition. -/
theorem failed_lock_aborts_before_inner_witness :
    (Mutex.lock ⟨false, 3⟩ ⟨32⟩).2.1 = false
    ∧ (Mutex.lock ⟨false, 3⟩ ⟨32⟩).1 = ⟨32 ||| 2 ^ 3⟩ :=
  failed_lock_aborts_before_inner ⟨false, 3⟩ ⟨32⟩ rfl

/-- C5: on a poisoned mutex the rank check passing, `lock` still builds
the guard around the poisoned inner guard and returns it inside the
error value; the rank bookkeeping (new RankSet, SavedState in the guard,
bit removal on guard drop) is identical to the non-poisoned path. -/
theorem poisoned_lock_bookkeeping (m : Mutex) (s : RankSet)
    (hok : (RankSet.insert s m.rank).2 = false) :
    ∃ g : MutexGuard,
      (Mutex.lock { m with poisoned := true } s).2.2 = some (Except.error g)
      ∧ g.saved_state.rank = m.rank
      ∧ (Mutex.lock { m with poisoned := true } s).1
          = (Mutex.lock { m with poisoned := false } s).1
      ∧ (Mutex.lock { m with poisoned := false } s).2.2 = some (Except.ok g)
      ∧ (∀ t : RankSet, g.drop t = RankSet.remove t m.rank) := by
  refine ⟨⟨⟨m.rank⟩⟩, ?_, rfl, ?_, ?_, ?_⟩
  · simp [Mutex.lock, ThreadState.lock, hok]
  · simp [Mutex.lock, ThreadState.lock, hok]
  · simp [Mutex.lock, ThreadState.lock, hok]
  · intro t
    rfl

/-- Witness for C5: poisoned rank-3 mutex acquired with only bit 1 held. -/
theorem poisoned_lock_bookkeeping_witness :
    ∃ g : MutexGuard,
      (Mutex.lock { poisoned := true, rank := 3 } ⟨2⟩).2.2 = some (Except.error g)
      ∧ g.saved_state.rank = 3
      ∧ (Mutex.lock { poisoned := true, rank := 3 } ⟨2⟩).1
          = (Mutex.lock { poisoned := false, rank := 3 } ⟨2⟩).1
      ∧ (Mutex.lock { poisoned := false, rank := 3 } ⟨2⟩).2.2 = some (Except.ok g)
      ∧ (∀ t : RankSet, g.drop t = RankSet.remove t 3) :=
  poisoned_lock_bookkeeping ⟨true, 3⟩ ⟨2⟩ (by decide)

/-- C6: `remove c` clears exactly bit `c` (every other bit keeps its
value), removing an already-clear bit is a no-op, and dropping a guard
removes exactly the rank its SavedState carries. -/
theorem remove_frame (m c : Nat) (hm : m < 2 ^ 64) (hc : c < 64) :
    (∀ i, (RankSet.remove ⟨m⟩ c).bitset.testBit i = (m.testBit i && !(decide (i = c))))
    ∧ (m.testBit c = false → RankSet.remove ⟨m⟩ c = ⟨m⟩)
    ∧ (∀ (g : MutexGuard) (t : RankSet), g.drop t = RankSet.remove t g.saved_state.rank) := by
  have hbit : ∀ i, (RankSet.remove ⟨m⟩ c).bitset.testBit i
      = (m.testBit i && !(decide (i = c))) := by
    intro i
    simp only [RankSet.remove, Nat.one_shiftLeft]
    rw [Nat.testBit_land, Nat.testBit_xor, Nat.testBit_two_pow_sub_one, Nat.testBit_two_pow]
    by_cases h1 : i < 64
    · by_cases h2 : c = i
      · subst h2
        simp [h1]
      · simp [h1, h2]
        intro _
        omega
    · rw [testBit_false_of_ge hm (by omega)]
      rfl
  refine ⟨hbit, ?_, ?_⟩
  · intro hclear
    apply RankSet.ext
    apply Nat.eq_of_testBit_eq
    intro i
    rw [hbit i]
    by_cases h2 : i = c
    · subst h2
      simp [hclear]
    · simp [h2]
  · intro g t
    rfl

/-- Witness for C6 at m = 9 (bits 0 and 3), c = 3; no-op case uses that
bit 5 is clear in 9. -/
theorem remove_frame_witness :
    (∀ i, (RankSet.remove ⟨9⟩ 3).bitset.testBit i = (Nat.testBit 9 i && !(decide (i = 3))))
    ∧ (Nat.testBit 9 3 = false → RankSet.remove ⟨9⟩ 3 = ⟨9⟩)
    ∧ (∀ (g : MutexGuard) (t : RankSet), g.drop t = RankSet.remove t g.saved_state.rank) :=
  remove_frame 9 3 (by decide) (by decide)

/-- C7: from the empty set, inserting code `c` and then removing it
restores exactly the empty set. -/
theorem insert_remove_roundtrip (c : Nat) (hc : c < 64) :
    RankSet.remove (RankSet.insert RankSet.new c).1 c = RankSet.new := by
  apply RankSet.ext
  show (RankSet.remove (RankSet.insert RankSet.new c).1 c).bitset = 0
  simp only [RankSet.new, RankSet.insert, RankSet.remove, Nat.one_shiftLeft]
  apply Nat.eq_of_testBit_eq
  intro i
  rw [Nat.testBit_land, Nat.testBit_lor, Nat.testBit_xor, Nat.testBit_two_pow_sub_one,
    Nat.testBit_two_pow, Nat.zero_testBit]
  by_cases h2 : c = i
  · subst h2
    simp [hc]
  · simp [h2]

/-- Witness for C7 at c = 3. -/
theorem insert_remove_roundtrip_witness :
    RankSet.remove (RankSet.insert RankSet.new 3).1 3 = RankSet.new :=
  insert_remove_roundtrip 3 (by decide)

/-- C8: under the precondition `c < 64` the checked shift `1_u64 << c`
cannot overflow: the checked operations are total, agree with the
unchecked ones, and both preserve the u64 bound on the mask. -/
theorem checked_ops_total (s : RankSet) (c : Nat) (hc : c < 64) :
    RankSet.insertChecked s c = some (RankSet.insert s c)
    ∧ RankSet.removeChecked s c = some (RankSet.remove s c)
    ∧ (s.bitset < 2 ^ 64 →
        (RankSet.insert s c).1.bitset < 2 ^ 64 ∧ (RankSet.remove s c).bitset < 2 ^ 64) := by
  refine ⟨?_, ?_, ?_⟩
  · simp [RankSet.insertChecked, RankSet.insert, checkedShl1, hc]
  · simp [RankSet.removeChecked, RankSet.remove, checkedShl1, hc]
  · intro hs
    constructor
    · show s.bitset ||| 1 <<< c < 2 ^ 64
      rw [Nat.one_shiftLeft]
      exact Nat.or_lt_two_pow hs (Nat.pow_lt_pow_right (by omega) hc)
    · exact Nat.and_lt_two_pow _ (Nat.xor_lt_two_pow
        (Nat.sub_lt (Nat.pos_pow_of_pos 64 (by omega)) (by omega))
        (by rw [Nat.one_shiftLeft]; exact Nat.pow_lt_pow_right (by omega) hc))

/-- Witness for C8 at mask 5, c = 3. -/
theorem checked_ops_total_witness :
    RankSet.insertChecked ⟨5⟩ 3 = some (RankSet.insert ⟨5⟩ 3)
    ∧ RankSet.removeChecked ⟨5⟩ 3 = some (RankSet.remove ⟨5⟩ 3)
    ∧ ((5 : Nat) < 2 ^ 64 →
        (RankSet.insert ⟨5⟩ 3).1.bitset < 2 ^ 64 ∧ (RankSet.remove ⟨5⟩ 3).bitset < 2 ^ 64) :=
  checked_ops_total ⟨5⟩ 3 (by decide)

/-- C10: `insert 0` returns `true` exactly when the mask is non-empty
(the greater-than-or-equal mask for code 0 covers all 64 positions), so
a rank-0 lock is acquirable only with no locks held; and a held bit 0
never affects a later acquisition of a positive code. -/
theorem insert_zero_iff_nonempty (m c : Nat) (hm : m < 2 ^ 64) (hc0 : 0 < c) (hc : c < 64) :
    ((RankSet.insert ⟨m⟩ 0).2 = true ↔ m ≠ 0)
    ∧ (RankSet.insert ⟨m ||| 1⟩ c).2 = (RankSet.insert ⟨m⟩ c).2 := by
  constructor
  · rw [insert_snd, bne_iff_ne]
    have h0 : (2 : Nat) ^ 0 - 1 = 0 := rfl
    rw [h0, Nat.xor_zero, Nat.and_pow_two_sub_one_of_lt_two_pow hm]
  · rw [insert_snd, insert_snd]
    have : (m ||| 1) &&& ((2 ^ 64 - 1) ^^^ (2 ^ c - 1))
        = m &&& ((2 ^ 64 - 1) ^^^ (2 ^ c - 1)) := by
      apply Nat.eq_of_testBit_eq
      intro i
      rw [Nat.testBit_land, Nat.testBit_land, Nat.testBit_lor, testBit_geMask (by omega)]
      by_cases hi0 : i = 0
      · subst hi0
        have hcle : decide (c ≤ 0) = false := decide_eq_false (by omega)
        rw [hcle]
        simp
      · have h1 : Nat.testBit 1 i = false := by
          rw [show (1 : Nat) = 2 ^ 0 from rfl, Nat.testBit_two_pow]
          exact decide_eq_false (fun h => hi0 h.symm)
        simp [h1]
    rw [this]

/-- Witness for C10 at m = 2, c = 5. -/
theorem insert_zero_iff_nonempty_witness :
    ((RankSet.insert ⟨2⟩ 0).2 = true ↔ (2 : Nat) ≠ 0)
    ∧ (RankSet.insert ⟨2 ||| 1⟩ 5).2 = (RankSet.insert ⟨2⟩ 5).2 :=
  insert_zero_iff_nonempty 2 5 (by decide) (by decide) (by decide)

/-- A release-free run of violation-free acquisitions visits strictly
increasing codes, every one of them above every initially-set bit. -/
theorem runOps_acquire_sorted {m : Nat} (hm : m < 2 ^ 64) (cs : List Nat)
    (hcs : ∀ x ∈ cs, x < 64)
    (hok : (runOps ⟨m⟩ (cs.map Op.acquire)).2 = false) :
    List.Chain' (· < ·) cs ∧ ∀ x ∈ cs, ∀ i, m.testBit i = true → i < x := by
  induction cs generalizing m with
  | nil => exact ⟨List.chain'_nil, by simp⟩
  | cons c rest ih =>
    have hc : c < 64 := hcs c (List.mem_cons_self c rest)
    have hsplit : ((RankSet.insert ⟨m⟩ c).2
        || (runOps (RankSet.insert ⟨m⟩ c).1 (rest.map Op.acquire)).2) = false := hok
    have h1 : (RankSet.insert ⟨m⟩ c).2 = false := by
      cases hv : (RankSet.insert ⟨m⟩ c).2
      · rfl
      · rw [hv] at hsplit
        exact Bool.noConfusion hsplit
    have h2 : (runOps ⟨m ||| 2 ^ c⟩ (rest.map Op.acquire)).2 = false := by
      rw [h1] at hsplit
      rw [← RankSet.ext (insert_fst m c)]
      simpa using hsplit
    have hbits : ∀ i, m.testBit i = true → i < c := (insert_snd_false_iff hm hc).mp h1
    have hm' : m ||| 2 ^ c < 2 ^ 64 :=
      Nat.or_lt_two_pow hm (Nat.pow_lt_pow_right (by omega) hc)
    have hrest := ih hm' (fun x hx => hcs x (List.mem_cons_of_mem c hx)) h2
    constructor
    · rw [List.chain'_cons']
      refine ⟨?_, hrest.1⟩
      intro y hy
      have hybit : (m ||| 2 ^ c).testBit c = true := by
        rw [Nat.testBit_lor, Nat.testBit_two_pow]
        simp
      exact hrest.2 y (List.mem_of_mem_head? hy) c hybit
    · intro x hx i hi
      rcases List.mem_cons.mp hx with hxc | hxr
      · subst hxc
        exact hbits i hi
      · have hib : (m ||| 2 ^ c).testBit i = true := by
          rw [Nat.testBit_lor, hi]
          rfl
        exact hrest.2 x hxr i hib

/-- C4: a violation-free insert makes `c` the new highest set bit,
strictly above every bit set at call time; hence the codes of any
release-free sequence of violation-free acquisitions are strictly
increasing. -/
theorem insert_monotone (m c : Nat) (hm : m < 2 ^ 64) (hc : c < 64) :
    ((RankSet.insert ⟨m⟩ c).2 = false →
      ((RankSet.insert ⟨m⟩ c).1.bitset.testBit c = true
       ∧ (∀ i, (RankSet.insert ⟨m⟩ c).1.bitset.testBit i = true → i ≤ c)
       ∧ (∀ i, m.testBit i = true → i < c)))
    ∧ (∀ cs : List Nat, (∀ x ∈ cs, x < 64) →
        (runOps ⟨m⟩ (cs.map Op.acquire)).2 = false → List.Chain' (· < ·) cs) := by
  constructor
  · intro hf
    have hbits := (insert_snd_false_iff hm hc).mp hf
    rw [insert_fst]
    refine ⟨?_, ?_, hbits⟩
    · rw [Nat.testBit_lor, Nat.testBit_two_pow]
      simp
    · intro i hi
      rw [Nat.testBit_lor, Bool.or_eq_true] at hi
      rcases hi with hmi | hci
      · exact Nat.le_of_lt (hbits i hmi)
      · rw [Nat.testBit_two_pow] at hci
        have := of_decide_eq_true hci
        omega
  · exact fun cs hcs hok => (runOps_acquire_sorted hm cs hcs hok).1

/-- Witness for C4: from mask 1, acquiring codes 3 then 5 raises no
violation, so the sequence is strictly increasing. -/
theorem insert_monotone_witness : List.Chain' (· < ·) [3, 5] :=
  (insert_monotone 1 3 (by decide) (by decide)).2 [3, 5] (by decide) (by decide)

/-- C9: an interleaved trace affects each thread's RankSet and
violation outcomes exactly as that thread's own subsequence run alone
would, so success depends only on the acquiring thread's own calls; in
particular thread 1 taking rank 5 and thread 2 then taking rank 3 and
rank 5 (an order forbidden within one thread, and a rank shared across
threads) raises no violation on either thread. -/
theorem thread_isolation :
    (∀ (f : Threads) (tr : List (Nat × Op)) (t : Nat),
      (runSys f tr).1 t = (runOps (f t) (projThread t tr)).1
      ∧ (runSys f tr).2 t = (runOps (f t) (projThread t tr)).2)
    ∧ ((runSys (fun _ => RankSet.new)
         [(1, Op.acquire 5), (2, Op.acquire 3), (2, Op.acquire 5)]).2 1 = false
       ∧ (runSys (fun _ => RankSet.new)
         [(1, Op.acquire 5), (2, Op.acquire 3), (2, Op.acquire 5)]).2 2 = false) := by
  constructor
  · intro f tr t
    induction tr generalizing f with
    | nil => exact ⟨rfl, rfl⟩
    | cons e rest ih =>
      obtain ⟨u, op⟩ := e
      have hrs : runSys f ((u, op) :: rest)
          = ((runSys (fun v => if v = u then (stepOp (f u) op).1 else f v) rest).1,
             fun v => (if v = u then (stepOp (f u) op).2 else false)
               || (runSys (fun v => if v = u then (stepOp (f u) op).1 else f v) rest).2 v) :=
        rfl
      by_cases hut : u = t
      · subst hut
        have hproj : projThread u ((u, op) :: rest) = op :: projThread u rest := by
          simp [projThread]
        have hih := ih (fun v => if v = u then (stepOp (f u) op).1 else f v)
        rw [if_pos rfl] at hih
        rw [hrs, hproj]
        constructor
        · exact hih.1
        · show ((if u = u then (stepOp (f u) op).2 else false)
              || (runSys (fun v => if v = u then (stepOp (f u) op).1 else f v) rest).2 u)
            = (runOps (f u) (op :: projThread u rest)).2
          rw [if_pos rfl, hih.2]
          rfl
      · have hproj : projThread t ((u, op) :: rest) = projThread t rest := by
          simp [projThread, hut]
        have hih := ih (fun v => if v = u then (stepOp (f u) op).1 else f v)
        rw [if_neg (show ¬ t = u from fun h => hut h.symm)] at hih
        rw [hrs, hproj]
        constructor
        · exact hih.1
        · show ((if t = u then (stepOp (f u) op).2 else false)
              || (runSys (fun v => if v = u then (stepOp (f u) op).1 else f v) rest).2 t)
            = (runOps (f t) (projThread t rest)).2
          rw [if_neg (fun h => hut h.symm), hih.2]
          simp
  · exact ⟨by decide, by decide⟩

end OrderedMutex
